import Mathlib

/-!
Verification development for the PytorchStarter tutorial notebooks.

The Python notebooks are shallowly embedded: strings are `List Char`,
tensors are (nested) lists of rationals, the random number generator is an
explicit stream of naturals, the dropout mask is an explicit stream of
boolean keep-vectors, and the non-rational `LogSoftmax` normalizer
(log-sum-exp) is an explicit function argument.  Autograd's backward pass
is modelled as an abstract gradient oracle applied to the scalar loss.
-/

/-- A vector of rationals (one tensor row). -/
abbrev Vec := List ℚ

/-- `string.ascii_letters`: the 26 lowercase then the 26 uppercase ASCII
letters, as in the Python `string` module. -/
def asciiLetters : List Char :=
  (List.range 26).map (fun i => Char.ofNat (97 + i)) ++
  (List.range 26).map (fun i => Char.ofNat (65 + i))

/-- `all_letters = string.ascii_letters + " .,;'-"` from the generation
notebook (the apostrophe is code point 39). -/
def allLetters : List Char :=
  asciiLetters ++ [' ', '.', ',', ';', Char.ofNat 39, '-']

/-- `n_letters = len(all_letters) + 1`: the alphabet size plus the EOS
marker. -/
def nLetters : Nat := allLetters.length + 1

/-- Modelled from the spec: `unicodedata.normalize('NFD', s)` is library
code, not part of this repository.  NFD canonically decomposes each
character; ASCII code points are NFD-invariant, and the table below covers
the accented letters the notebook itself exercises (the printed example
decodes a name with an acute e and a grave a), each decomposing into the
base letter followed by a combining mark. -/
def decomposeNFD (c : Char) : List Char :=
  if c = Char.ofNat 0xE9 then ['e', Char.ofNat 0x301]
  else if c = Char.ofNat 0xE0 then ['a', Char.ofNat 0x300]
  else if c = Char.ofNat 0xE8 then ['e', Char.ofNat 0x300]
  else if c = Char.ofNat 0xF1 then ['n', Char.ofNat 0x303]
  else [c]

/-- Modelled from the spec: `unicodedata.category(c) == 'Mn'` is library
code.  The nonspacing combining marks relevant here live in the Combining
Diacritical Marks block U+0300 to U+036F; no ASCII character is in
category Mn. -/
def isMn (c : Char) : Bool :=
  0x300 ≤ c.toNat && c.toNat ≤ 0x36F

/-- Modelled from the spec: the whole-string NFD normalization, the
concatenation of the per-character decompositions. -/
def nfd (s : List Char) : List Char :=
  s.flatMap decomposeNFD

/-- `unicodeToAscii` from the generation notebook: NFD-normalize, then
keep the characters that are not nonspacing marks and belong to
`all_letters`. -/
def unicodeToAscii (s : List Char) : List Char :=
  (nfd s).filter (fun c => !isMn c && allLetters.contains c)

/-- The first-occurrence index used by both Python `list.index` and
`str.find`: 0 at a match, one more than the tail's index otherwise (an
absent element yields the length; `list.index` raises there and the
notebook never hits that case). -/
def pyListIndex {α : Type} [DecidableEq α] (x : α) : List α → Nat
  | [] => 0
  | a :: t => if a = x then 0 else pyListIndex x t + 1

/-- `str.find` as used via `all_letters.find(letter)`: the index of the
first occurrence, or -1 when the character does not occur. -/
def pyFind (l : List Char) (c : Char) : Int :=
  if c ∈ l then (pyListIndex c l : Int) else -1

/-- Python sequence indexing used on tensors: a negative index counts from
the end (`t[-1]` is the last entry).  Out-of-range reads return 0 here;
the notebooks never perform one. -/
def pyGet (v : Vec) (i : Int) : ℚ :=
  if 0 ≤ i ∧ i < (v.length : Int) then v.getD i.toNat 0
  else if 0 ≤ i + (v.length : Int) ∧ i < 0 then v.getD (i + v.length).toNat 0
  else 0

/-- Python sequence index assignment with the same negative-index rule:
`setPy v i x` is `v` with entry `i` replaced by `x`. -/
def setPy (v : Vec) (i : Int) (x : ℚ) : Vec :=
  if 0 ≤ i then v.set i.toNat x
  else if 0 ≤ i + (v.length : Int) then v.set (i + v.length).toNat x
  else v

/-- `torch.zeros(n)` as a rational row. -/
def zerosVec (n : Nat) : Vec := List.replicate n 0

/-- `categoryTensor(category)`: a 1 x n_categories row of zeros with a 1
written at `all_categories.index(category)`.  `allCats` is the global
`all_categories` list and `pyListIndex` is Python `list.index` (first
occurrence); the notebook only calls this on categories present in the
list. -/
def categoryTensor (allCats : List (List Char)) (category : List Char) : Vec :=
  setPy (zerosVec allCats.length) (pyListIndex category allCats) 1

/-- One timestep slice of `inputTensor`: a 1 x n_letters row of zeros with
a 1 written at `all_letters.find(letter)` (Python indexing, so a -1 from a
character outside the alphabet would write at the last position). -/
def inputTensorSlice (letter : Char) : Vec :=
  setPy (zerosVec nLetters) (pyFind allLetters letter) 1

/-- `inputTensor(line)`: shape (len(line), 1, n_letters); the middle
(batch) dimension is the inner singleton list. -/
def inputTensor (line : List Char) : List (List Vec) :=
  line.map (fun c => [inputTensorSlice c])

/-- `targetTensor(line)`: the letter indexes of `line[1:]` followed by the
EOS index `n_letters - 1`, as a LongTensor (so entries are integers and a
missing character yields -1). -/
def targetTensor (line : List Char) : List Int :=
  (line.drop 1).map (pyFind allLetters) ++ [(nLetters : Int) - 1]

/-- The whitespace characters stripped by Python `str.strip()`: space,
tab, newline, carriage return, vertical tab, form feed. -/
def pyIsSpace (c : Char) : Bool :=
  c = ' ' || c = Char.ofNat 9 || c = Char.ofNat 10 || c = Char.ofNat 13 ||
  c = Char.ofNat 11 || c = Char.ofNat 12

/-- Python `str.strip()`: drop whitespace from both ends. -/
def pyStrip (s : List Char) : List Char :=
  ((s.dropWhile pyIsSpace).reverse.dropWhile pyIsSpace).reverse

/-- Python `str.split(sep)` for a one-character separator: the maximal
runs between separators, so the result is never empty and the empty
string splits to one empty field. -/
def pySplit (sep : Char) : List Char → List (List Char)
  | [] => [[]]
  | c :: cs =>
    let rest := pySplit sep cs
    if c = sep then [] :: rest
    else
      match rest with
      | [] => [[c]]
      | h :: t => (c :: h) :: t

/-- `readLines(filename)` applied to the file content: strip the content,
split on newlines, convert each line with `unicodeToAscii`. -/
def readLines (content : List Char) : List (List Char) :=
  (pySplit (Char.ofNat 10) (pyStrip content)).map unicodeToAscii

/-- `os.path.basename`: the part of the path after the last slash. -/
def pyBasename (path : List Char) : List Char :=
  (pySplit '/' path).getLastD []

/-- The stem of `os.path.splitext`: cut the name at its last dot, except
that a name whose characters before that dot are all dots (such as a
dotfile name) keeps its full name, as in CPython. -/
def splitextStem (name : List Char) : List Char :=
  match (List.range name.length).filter
      (fun i => name.getD i ' ' = '.') |>.getLast? with
  | none => name
  | some i =>
    if (name.take i).all (fun c => c = '.') then name
    else name.take i

/-- The category name derived from a file path:
`os.path.splitext(os.path.basename(filename))[0]`. -/
def categoryOfFile (path : List Char) : List Char :=
  splitextStem (pyBasename path)

/-- Python dict assignment `d[k] = v` on an insertion-ordered association
list: replace the binding when the key exists, otherwise append. -/
def dictInsert (d : List (List Char × List (List Char)))
    (k : List Char) (v : List (List Char)) :
    List (List Char × List (List Char)) :=
  if (d.map Prod.fst).contains k then
    d.map (fun p => if p.1 = k then (k, v) else p)
  else d ++ [(k, v)]

/-- The data-loading loop of the generation notebook, over the list of
files `findFiles('data/names/*.txt')` returned, each given as its path
paired with its content: append each category to `all_categories` and
store its lines in `category_lines`. -/
def loadNames (files : List (List Char × List Char)) :
    List (List Char) × List (List Char × List (List Char)) :=
  files.foldl
    (fun acc fc =>
      (acc.1 ++ [categoryOfFile fc.1],
       dictInsert acc.2 (categoryOfFile fc.1) (readLines fc.2)))
    ([], [])

/-- The data-loading step including its failure check: after the loading
loop, `n_categories = len(all_categories)` and a RuntimeError is raised
exactly when `n_categories == 0`. -/
def loadData (files : List (List Char × List Char)) :
    Except (List Char)
      (List (List Char) × List (List Char × List (List Char))) :=
  let loaded := loadNames files
  if loaded.1.length = 0 then
    Except.error ("Data not found.".toList)
  else Except.ok loaded

/-- An `nn.Linear` layer: a weight matrix (list of rows) and a bias. -/
structure Linear where
  weight : List Vec
  bias : Vec
deriving Repr

/-- Dot product of two rational rows. -/
def dotQ (x y : Vec) : ℚ := (List.zipWith (· * ·) x y).sum

/-- Application of a linear layer: `W x + b`, one dot product per row. -/
def applyLinear (l : Linear) (x : Vec) : Vec :=
  List.zipWith (fun row b => dotQ row x + b) l.weight l.bias

/-- The parameters of the `RNN` module from the generation notebook: the
`i2h`, `i2o` and `o2o` linear layers (the dropout and softmax layers hold
no parameters) and the stored hidden size. -/
structure RNNParams where
  hiddenSize : Nat
  i2h : Linear
  i2o : Linear
  o2o : Linear
deriving Repr

/-- `nn.Dropout(0.1)` in training mode, with the random mask explicit: a
kept coordinate is scaled by 1/(1-0.1) = 10/9, a dropped one becomes 0. -/
def dropoutApply (mask : List Bool) (v : Vec) : Vec :=
  List.zipWith (fun keep x => if keep then x * (10 / 9) else 0) mask v

/-- `nn.LogSoftmax(dim=1)` on a single row, with the non-rational
normalizer log-sum-exp passed in as `lse`: each coordinate becomes
`x - lse v`. -/
def logSoftmax (lse : Vec → ℚ) (v : Vec) : Vec :=
  v.map (fun x => x - lse v)

/-- `RNN.forward(category, input, hidden)` from the generation notebook,
with the batch dimension of size 1 dropped: concatenate category, input
and hidden; the new hidden is `i2h` of that, the output passes through
`i2o`, the concatenation with the new hidden, `o2o`, dropout and
log-softmax. -/
def rnnForward (θ : RNNParams) (lse : Vec → ℚ) (mask : List Bool)
    (category input hidden : Vec) : Vec × Vec :=
  let inputCombined := category ++ input ++ hidden
  let hidden2 := applyLinear θ.i2h inputCombined
  let output1 := applyLinear θ.i2o inputCombined
  let outputCombined := hidden2 ++ output1
  let output2 := applyLinear θ.o2o outputCombined
  let output3 := dropoutApply mask output2
  (logSoftmax lse output3, hidden2)

/-- `RNN.initHidden()`: a zero row of the stored hidden size. -/
def initHidden (θ : RNNParams) : Vec := zerosVec θ.hiddenSize

/-- `criterion = nn.NLLLoss()` on one row of log-probabilities and one
target index: minus the entry at the target (mean over a batch of one). -/
def criterion (out : Vec) (target : Int) : ℚ := -(pyGet out target)

/-- `learning_rate = 0.0005`. -/
def learningRate : ℚ := 5 / 10000

/-- `rnn.parameters()` flattened in registration order: `i2h` weight then
bias, `i2o` weight then bias, `o2o` weight then bias. -/
def flattenParams (θ : RNNParams) : List ℚ :=
  (θ.i2h.weight.flatten ++ θ.i2h.bias) ++
  (θ.i2o.weight.flatten ++ θ.i2o.bias) ++
  (θ.o2o.weight.flatten ++ θ.o2o.bias)

/-- The body of the loop in `train`: iterate over the timesteps of the
input sequence with index `i`, threading the hidden state, accumulating
the loss and overwriting `output`; the dropout mask of the forward call at
timestep `i` is `masks i`.  Targets are read by index as in
`target_line_tensor[i]` (the notebook always passes sequences of equal
length). -/
def trainStepsAux (θ : RNNParams) (lse : Vec → ℚ) (masks : Nat → List Bool)
    (catT : Vec) (targets : List Int) :
    Nat → Vec → ℚ → Option Vec → List Vec → Option Vec × ℚ
  | _, _, loss, lastOut, [] => (lastOut, loss)
  | i, hidden, loss, _, inp :: rest =>
    let step := rnnForward θ lse (masks i) catT inp hidden
    trainStepsAux θ lse masks catT targets (i + 1) step.2
      (loss + criterion step.1 (targets.getD i 0)) (some step.1) rest

/-- `train(category_tensor, input_line_tensor, target_line_tensor)` with
the autograd backward pass modelled as an oracle `backward` from the
scalar loss it is invoked on to the flattened gradients: run the timestep
loop, call backward once on the accumulated loss, update every parameter
in place by `p.data.add_(-learning_rate, p.grad.data)`, and return the
last output together with `loss.item()` divided by the sequence length.
An empty input sequence is an error (`output` is unbound in Python), hence
the `Option`. -/
def train (θ : RNNParams) (lse : Vec → ℚ) (masks : Nat → List Bool)
    (backward : ℚ → List ℚ) (lr : ℚ) (catT : Vec)
    (inputLine : List Vec) (targetLine : List Int) :
    Option (Vec × ℚ × List ℚ) :=
  let run := trainStepsAux θ lse masks catT targetLine 0 (initHidden θ) 0
    none inputLine
  match run.1 with
  | none => none
  | some out =>
    let grads := backward run.2
    some (out, run.2 / (inputLine.length : ℚ),
      List.zipWith (fun p g => p + (-lr) * g) (flattenParams θ) grads)

/-- Specification-side view of the loop in `train`: the per-timestep
outputs of the recurrent forward pass starting from timestep `i` in state
`hidden`. -/
def runOutputs (θ : RNNParams) (lse : Vec → ℚ) (masks : Nat → List Bool)
    (catT : Vec) : Nat → Vec → List Vec → List Vec
  | _, _, [] => []
  | i, hidden, inp :: rest =>
    let step := rnnForward θ lse (masks i) catT inp hidden
    step.1 :: runOutputs θ lse masks catT (i + 1) step.2 rest

/-- Specification-side view of the accumulated loss: the per-timestep
negative log-likelihood losses along the same run. -/
def runLosses (θ : RNNParams) (lse : Vec → ℚ) (masks : Nat → List Bool)
    (catT : Vec) (targets : List Int) : Nat → Vec → List Vec → List ℚ
  | _, _, [] => []
  | i, hidden, inp :: rest =>
    let step := rnnForward θ lse (masks i) catT inp hidden
    criterion step.1 (targets.getD i 0) ::
      runLosses θ lse masks catT targets (i + 1) step.2 rest

/-- `randomChoice(l)` = `l[random.randint(0, len(l) - 1)]` with the
generator draw `r` explicit: `randint(0, n-1)` is modelled as `r mod n`.
An empty list is an error in Python; the default is never reached by the
notebook. -/
def randomChoice (l : List (List Char)) (r : Nat) : List Char :=
  l.getD (r % l.length) []

/-- `randomTrainingPair()`: one draw picks the category from
`all_categories`, a second picks the line from
`category_lines[category]`. -/
def randomTrainingPair (cats : List (List Char))
    (clines : List (List Char × List (List Char))) (r1 r2 : Nat) :
    List Char × List Char :=
  let category := randomChoice cats r1
  let line := randomChoice ((clines.lookup category).getD []) r2
  (category, line)

/-- The sequence of training examples selected by the generation
notebook's loop `for iter in range(1, n_iters + 1)`: iteration `iter`
calls `randomTrainingExample()`, which consumes the next two draws of the
unseeded generator stream. -/
def selectedPairs (cats : List (List Char))
    (clines : List (List Char × List (List Char)))
    (stream : Nat → Nat) (n : Nat) : List (List Char × List Char) :=
  (List.range n).map
    (fun k => randomTrainingPair cats clines (stream (2 * k))
      (stream (2 * k + 1)))

/-- The examples processed by iteration `iter` (1-based) of the
generation notebook's training loop: exactly the one randomly drawn
example of that iteration. -/
def namegenIterExamples (cats : List (List Char))
    (clines : List (List Char × List (List Char)))
    (stream : Nat → Nat) (iter : Nat) : List (List Char × List Char) :=
  [randomTrainingPair cats clines (stream (2 * (iter - 1)))
    (stream (2 * (iter - 1) + 1))]

/-- Helper to write Python string literals as character lists. -/
def chars (s : String) : List Char := s.toList

/-- `training_data` from the POS-tagger notebook: two sentences split on
spaces, each paired with its tag list. -/
def posTrainingData :
    List (List (List Char) × List (List Char)) :=
  [([chars "The", chars "dog", chars "ate", chars "the", chars "apple"],
    [chars "DET", chars "NN", chars "V", chars "DET", chars "NN"]),
   ([chars "Everybody", chars "read", chars "that", chars "book"],
    [chars "NN", chars "V", chars "DET", chars "NN"])]

/-- The trace of the POS-tagger training loop `for epoch in range(300)`:
the examples processed, each tagged with its epoch, in order.  The inner
loop `for sentence, tags in training_data` yields every example of
`training_data` once per epoch. -/
def posTrace (epochs : Nat) :
    List (Nat × (List (List Char) × List (List Char))) :=
  (List.range epochs).flatMap
    (fun e => posTrainingData.map (fun ex => (e, ex)))

/-- The examples processed during epoch `e` of the POS-tagger loop, read
off the trace. -/
def posEpochExamples (epochs e : Nat) :
    List (List (List Char) × List (List Char)) :=
  (posTrace epochs).filterMap
    (fun p => if p.1 = e then some p.2 else none)

/-- `max_length = 20` from the sampling cell. -/
def maxLength : Nat := 20

/-- `output.topk(1)` on one row: the index of the (first) maximum entry;
ties are broken toward the first occurrence in this model. -/
def topIdx (v : Vec) : Nat :=
  match v.max? with
  | some m => v.indexOf m
  | none => 0

/-- The loop of `sample`: run for at most `fuel` iterations (`fuel` starts
at `max_length`), with `i` the timestep index selecting the dropout mask
of each forward call (the network stays in training mode, so dropout is
live during sampling); stop when the top index is the EOS index
`n_letters - 1`, otherwise append the letter and feed its input tensor
back in. -/
def sampleAux (θ : RNNParams) (lse : Vec → ℚ) (masks : Nat → List Bool)
    (catT : Vec) : Nat → Nat → Vec → Vec → List Char → List Char
  | 0, _, _, _, name => name
  | fuel + 1, i, inp, hidden, name =>
    let step := rnnForward θ lse (masks i) catT inp hidden
    let t := topIdx step.1
    if t = nLetters - 1 then name
    else
      let letter := allLetters.getD t ' '
      sampleAux θ lse masks catT fuel (i + 1) (inputTensorSlice letter)
        step.2 (name ++ [letter])

/-- `sample(category, start_letter)`: start from the category tensor, the
input tensor of the start letter and a zero hidden state, with
`output_name` initialized to the start letter, and run the generation
loop. -/
def sample (cats : List (List Char)) (θ : RNNParams) (lse : Vec → ℚ)
    (masks : Nat → List Bool) (category : List Char) (startLetter : Char) :
    List Char :=
  sampleAux θ lse masks (categoryTensor cats category) maxLength 0
    (inputTensorSlice startLetter) (initHidden θ) [startLetter]

/-- Specification-side view of the generation loop: the stream of
top-scoring indices the network produces when each non-EOS choice is fed
back in (after an EOS the stream continues formally, with the EOS slice as
input; `sample` never reads past it). -/
def greedyIndices (θ : RNNParams) (lse : Vec → ℚ) (masks : Nat → List Bool)
    (catT : Vec) : Nat → Nat → Vec → Vec → List Nat
  | 0, _, _, _ => []
  | fuel + 1, i, inp, hidden =>
    let step := rnnForward θ lse (masks i) catT inp hidden
    let t := topIdx step.1
    t :: greedyIndices θ lse masks catT fuel (i + 1)
      (inputTensorSlice (allLetters.getD t ' ')) step.2

/-- One step of the `word_to_ix` construction from the POS-tagger
notebook: `if word not in word_to_ix: word_to_ix[word] = len(word_to_ix)`,
on an insertion-ordered association list. -/
def insertWord (d : List (List Char × Nat)) (w : List Char) :
    List (List Char × Nat) :=
  if (d.map Prod.fst).contains w then d else d ++ [(w, d.length)]

/-- The `word_to_ix` construction applied to a flat stream of words. -/
def buildVocab (ws : List (List Char)) : List (List Char × Nat) :=
  ws.foldl insertWord []

/-- The `word_to_ix` construction as written: iterate over the sentences
of the training data, and over the words of each sentence. -/
def wordToIx (data : List (List (List Char) × List (List Char))) :
    List (List Char × Nat) :=
  data.foldl (fun d st => st.1.foldl insertWord d) []

theorem loadNames_fst_length_aux (files : List (List Char × List Char))
    (acc : List (List Char) × List (List Char × List (List Char))) :
    ((files.foldl (fun acc fc =>
      (acc.1 ++ [categoryOfFile fc.1],
       dictInsert acc.2 (categoryOfFile fc.1) (readLines fc.2))) acc).1).length
      = acc.1.length + files.length := by
  induction files generalizing acc with
  | nil => simp
  | cons f rest ih =>
    rw [List.foldl_cons, ih]
    simp
    omega

/-- C1: after scanning the data files, the loading step raises a
RuntimeError exactly when the category count `n_categories` is zero, which
happens exactly when no data files were found (the category list gets one
entry per file).  All other operations of the embedding are total
functions: the notebooks contain no other `raise`. -/
theorem loadData_error_iff_no_files (files : List (List Char × List Char)) :
    ((∃ e, loadData files = Except.error e) ↔ (loadNames files).1.length = 0)
    ∧ (loadNames files).1.length = files.length
    ∧ ((loadNames files).1.length = 0 ↔ files = []) := by
  have hlen : (loadNames files).1.length = files.length := by
    have h := loadNames_fst_length_aux files ([], [])
    simpa [loadNames] using h
  refine ⟨?_, hlen, ?_⟩
  · by_cases h : (loadNames files).1.length = 0 <;> simp [loadData, h]
  · rw [hlen, List.length_eq_zero]

theorem decomposeNFD_fixed_on_allLetters :
    allLetters.all
      (fun c => decide (decomposeNFD c = [c]) && !isMn c &&
        allLetters.contains c) = true := by decide

theorem nfd_of_fixed (l : List Char) (h : ∀ c ∈ l, decomposeNFD c = [c]) :
    nfd l = l := by
  induction l with
  | nil => rfl
  | cons c t ih =>
    have hc := h c (List.mem_cons_self c t)
    have ht := ih (fun x hx => h x (List.mem_cons_of_mem c hx))
    simp only [nfd, List.flatMap_cons] at *
    rw [hc, ht]
    rfl

theorem mem_allLetters_fixed (c : Char) (h : c ∈ allLetters) :
    decomposeNFD c = [c] := by
  have hall := decomposeNFD_fixed_on_allLetters
  rw [List.all_eq_true] at hall
  have h2 := hall c h
  simp only [Bool.and_eq_true, decide_eq_true_eq] at h2
  exact h2.1.1

/-- C10: `unicodeToAscii` is closed over the alphabet (every character of
its output belongs to `all_letters`) and idempotent. -/
theorem unicodeToAscii_closed_idempotent (s : List Char) :
    (unicodeToAscii s).all (fun c => allLetters.contains c) = true
    ∧ unicodeToAscii (unicodeToAscii s) = unicodeToAscii s := by
  have hmem : ∀ c ∈ unicodeToAscii s,
      (!isMn c && allLetters.contains c) = true := by
    intro c hc
    have hc2 : c ∈ (nfd s).filter
        (fun c => !isMn c && allLetters.contains c) := hc
    exact (List.mem_filter.mp hc2).2
  constructor
  · rw [List.all_eq_true]
    intro c hc
    exact (Bool.and_eq_true _ _ |>.mp (hmem c hc)).2
  · show (nfd (unicodeToAscii s)).filter _ = unicodeToAscii s
    rw [nfd_of_fixed]
    · exact List.filter_eq_self.mpr hmem
    · intro c hc
      have h2 := (Bool.and_eq_true _ _ |>.mp (hmem c hc)).2
      have h3 : c ∈ allLetters := by
        simpa [List.contains] using h2
      exact mem_allLetters_fixed c h3

/-- The specification-side one-hot row: 1 at index `i`, 0 elsewhere. -/
def oneHotQ (n i : Nat) : Vec :=
  (List.range n).map (fun j => if j = i then 1 else 0)

theorem setPy_zeros_oneHot (n i : Nat) (h : i < n) :
    setPy (zerosVec n) (i : Int) 1 = oneHotQ n i := by
  unfold setPy zerosVec oneHotQ
  rw [if_pos (Int.ofNat_nonneg i)]
  apply List.ext_getElem
  · simp
  · intro j h1 h2
    simp only [List.getElem_set, Int.toNat_ofNat, List.getElem_map,
      List.getElem_range, List.getElem_replicate]
    by_cases hji : j = i
    · simp [hji]
    · rw [if_neg (fun hh : i = j => hji hh.symm), if_neg hji]

theorem pyListIndex_lt_length {α : Type} [DecidableEq α] (x : α)
    (l : List α) (h : x ∈ l) : pyListIndex x l < l.length := by
  induction l with
  | nil => cases h
  | cons a t ih =>
    unfold pyListIndex
    by_cases hax : a = x
    · simp [hax]
    · have hxt : x ∈ t := by
        rcases List.mem_cons.mp h with h1 | h1
        · exact absurd h1.symm hax
        · exact h1
      simp only [hax, if_false, List.length_cons]
      have := ih hxt
      omega

theorem pyFind_of_mem (l : List Char) (c : Char) (h : c ∈ l) :
    pyFind l c = (pyListIndex c l : Int) := by
  unfold pyFind
  rw [if_pos h]

/-- C9: for a nonempty line, `targetTensor` has the line's length, ends in
the EOS index `n_letters - 1`, and its entry at every earlier position `i`
is `all_letters.find(line[i+1])`; `inputTensor` always has the same
first-dimension length as the line, hence as `targetTensor`, which is the
alignment the per-timestep loss loop in `train` relies on. -/
theorem targetTensor_aligned (line : List Char) (h : line ≠ []) :
    (targetTensor line).length = line.length
    ∧ (targetTensor line).getLast? = some ((nLetters : Int) - 1)
    ∧ (∀ i, i < line.length - 1 →
        (targetTensor line).getD i 0 =
          pyFind allLetters (line.getD (i + 1) ' '))
    ∧ (inputTensor line).length = (targetTensor line).length := by
  have hpos : 0 < line.length := List.length_pos.mpr h
  have hlen : (targetTensor line).length = line.length := by
    simp [targetTensor]
    omega
  refine ⟨hlen, ?_, ?_, ?_⟩
  · show ((line.drop 1).map (pyFind allLetters) ++ [(nLetters : Int) - 1]).getLast?
      = some ((nLetters : Int) - 1)
    simp
  · intro i hi
    have hiA : i < ((line.drop 1).map (pyFind allLetters)).length := by
      simp
      omega
    have hi1 : i + 1 < line.length := by omega
    show (((line.drop 1).map (pyFind allLetters) ++
        [(nLetters : Int) - 1]).getD i 0)
      = pyFind allLetters (line.getD (i + 1) ' ')
    rw [List.getD_eq_getElem?_getD, List.getElem?_append, if_pos hiA,
      List.getElem?_map, List.getElem?_drop, List.getD_eq_getElem?_getD,
      show (1 : Nat) + i = i + 1 by omega,
      List.getElem?_eq_getElem hi1]
    simp
  · rw [hlen]
    simp [inputTensor]

/-- C9 witness: the properties evaluated on the concrete line "ab". -/
theorem targetTensor_aligned_witness :
    (targetTensor (chars "ab")).length = (chars "ab").length
    ∧ (targetTensor (chars "ab")).getLast? = some ((nLetters : Int) - 1)
    ∧ (targetTensor (chars "ab")).getD 0 0 =
        pyFind allLetters ((chars "ab").getD 1 ' ')
    ∧ (inputTensor (chars "ab")).length = (targetTensor (chars "ab")).length :=
  ⟨(targetTensor_aligned (chars "ab") (by decide)).1,
   (targetTensor_aligned (chars "ab") (by decide)).2.1,
   (targetTensor_aligned (chars "ab") (by decide)).2.2.1 0 (by decide),
   (targetTensor_aligned (chars "ab") (by decide)).2.2.2⟩

/-- C4: the input encodings are one-hot.  For a category present in
`all_categories`, `categoryTensor` is the one-hot row of width
`n_categories` at the category's (first-occurrence) index; for a line of
alphabet characters, `inputTensor` has one timestep per character, each a
batch-1 slice holding the one-hot row of width `n_letters` at the
character's alphabet index. -/
theorem encodings_one_hot (cats : List (List Char)) (category : List Char)
    (ln : List Char) (h1 : category ∈ cats)
    (h2 : ∀ c ∈ ln, c ∈ allLetters) :
    categoryTensor cats category
      = oneHotQ cats.length (pyListIndex category cats)
    ∧ (inputTensor ln).length = ln.length
    ∧ (∀ k, k < ln.length →
        (inputTensor ln).getD k []
          = [oneHotQ nLetters (pyListIndex (ln.getD k ' ') allLetters)]) := by
  refine ⟨?_, by simp [inputTensor], ?_⟩
  · unfold categoryTensor
    exact setPy_zeros_oneHot _ _ (pyListIndex_lt_length _ _ h1)
  · intro k hk
    have hmap : k < (inputTensor ln).length := by simp [inputTensor, hk]
    rw [List.getD_eq_getElem _ _ hmap, List.getD_eq_getElem _ _ hk]
    show (ln.map (fun c => [inputTensorSlice c]))[k] = _
    rw [List.getElem_map]
    have hmem : ln[k] ∈ allLetters := h2 _ (List.getElem_mem hk)
    have hidx : pyListIndex ln[k] allLetters < allLetters.length :=
      pyListIndex_lt_length _ _ hmem
    have hidx2 : pyListIndex ln[k] allLetters < nLetters := by
      unfold nLetters
      omega
    show [inputTensorSlice ln[k]] = _
    unfold inputTensorSlice
    rw [pyFind_of_mem _ _ hmem, setPy_zeros_oneHot _ _ hidx2]

/-- C4 witness: the one-hot properties evaluated on a concrete category
list and the line "ab". -/
theorem encodings_one_hot_witness :
    categoryTensor [chars "English", chars "Spanish"] (chars "Spanish")
      = oneHotQ 2 (pyListIndex (chars "Spanish")
          [chars "English", chars "Spanish"])
    ∧ (inputTensor (chars "ab")).length = (chars "ab").length
    ∧ (inputTensor (chars "ab")).getD 0 []
      = [oneHotQ nLetters (pyListIndex ((chars "ab").getD 0 ' ') allLetters)] :=
  ⟨(encodings_one_hot [chars "English", chars "Spanish"] (chars "Spanish")
      (chars "ab") (by decide) (by decide)).1,
   (encodings_one_hot [chars "English", chars "Spanish"] (chars "Spanish")
      (chars "ab") (by decide) (by decide)).2.1,
   (encodings_one_hot [chars "English", chars "Spanish"] (chars "Spanish")
      (chars "ab") (by decide) (by decide)).2.2 0 (by decide)⟩

theorem dictInsert_fresh (d : List (List Char × List (List Char)))
    (k : List Char) (v : List (List Char)) (h : k ∉ d.map Prod.fst) :
    dictInsert d k v = d ++ [(k, v)] := by
  unfold dictInsert
  rw [if_neg]
  simpa using h

theorem loadNames_snd_aux (files : List (List Char × List Char))
    (cats : List (List Char)) (d : List (List Char × List (List Char)))
    (hnd : (d.map Prod.fst ++
      files.map (fun fc => categoryOfFile fc.1)).Nodup) :
    (files.foldl (fun acc fc =>
      (acc.1 ++ [categoryOfFile fc.1],
       dictInsert acc.2 (categoryOfFile fc.1) (readLines fc.2)))
      (cats, d)).2
      = d ++ files.map (fun fc => (categoryOfFile fc.1, readLines fc.2)) := by
  induction files generalizing cats d with
  | nil => simp
  | cons f rest ih =>
    rw [List.foldl_cons]
    have hparts := List.nodup_append.mp (by simpa using hnd)
    have hfresh : categoryOfFile f.1 ∉ d.map Prod.fst := by
      intro hin
      exact hparts.2.2 hin (List.mem_cons_self _ _)
    rw [dictInsert_fresh _ _ _ hfresh]
    have hnd2 : ((d ++ [(categoryOfFile f.1, readLines f.2)]).map Prod.fst ++
        rest.map (fun fc => categoryOfFile fc.1)).Nodup := by
      rw [List.map_append]
      simp only [List.map_cons, List.map_nil]
      rw [List.append_assoc]
      simpa [List.singleton_append] using hnd
    have := ih (cats ++ [categoryOfFile f.1])
      (d ++ [(categoryOfFile f.1, readLines f.2)]) hnd2
    rw [this]
    simp

theorem lookup_stem_pairs (files : List (List Char × List Char))
    (f c : List Char) (hmem : (f, c) ∈ files)
    (hnd : (files.map (fun fc => categoryOfFile fc.1)).Nodup) :
    (files.map (fun fc => (categoryOfFile fc.1, readLines fc.2))).lookup
      (categoryOfFile f) = some (readLines c) := by
  induction files with
  | nil => cases hmem
  | cons g rest ih =>
    simp only [List.map_cons, List.lookup_cons]
    rcases List.mem_cons.mp hmem with h1 | h1
    · rw [← h1]
      simp
    · by_cases hk : categoryOfFile f = categoryOfFile g.1
      · exfalso
        have hin : categoryOfFile f ∈
            rest.map (fun fc => categoryOfFile fc.1) :=
          List.mem_map.mpr ⟨(f, c), h1, rfl⟩
        rw [hk] at hin
        exact (List.nodup_cons.mp (by simpa using hnd)).1 hin
      · have hb : (categoryOfFile f == categoryOfFile g.1) = false :=
          beq_false_of_ne hk
        rw [hb]
        exact ih h1 (List.nodup_cons.mp (by simpa using hnd)).2

/-- C6: the loader treats every file as newline-delimited names grouped by
language: `readLines` is strip, split on the newline character, then
`unicodeToAscii` on each line, and the loading loop stores that list in
`category_lines` under the file's base name without its extension (stated
for file lists whose stems are distinct, as in the shipped data set). -/
theorem loading_by_language (files : List (List Char × List Char))
    (hnd : (files.map (fun fc => categoryOfFile fc.1)).Nodup)
    (f c : List Char) (hmem : (f, c) ∈ files) :
    ((loadNames files).2).lookup (categoryOfFile f) = some (readLines c)
    ∧ readLines c
      = (pySplit (Char.ofNat 10) (pyStrip c)).map unicodeToAscii
    ∧ categoryOfFile f = splitextStem (pyBasename f) := by
  refine ⟨?_, rfl, rfl⟩
  have h2 := loadNames_snd_aux files [] [] (by simpa using hnd)
  unfold loadNames
  rw [h2]
  simpa using lookup_stem_pairs files f c hmem hnd

/-- C6 witness: two concrete files. -/
theorem loading_by_language_witness :
    ((loadNames [(chars "data/names/English.txt", chars "Abe\nAbel"),
        (chars "data/names/Spanish.txt", chars "Ana")]).2).lookup
      (categoryOfFile (chars "data/names/English.txt"))
      = some (readLines (chars "Abe\nAbel"))
    ∧ categoryOfFile (chars "data/names/English.txt")
      = splitextStem (pyBasename (chars "data/names/English.txt")) :=
  ⟨(loading_by_language
      [(chars "data/names/English.txt", chars "Abe\nAbel"),
       (chars "data/names/Spanish.txt", chars "Ana")]
      (by decide) (chars "data/names/English.txt") (chars "Abe\nAbel")
      (by decide)).1,
   (loading_by_language
      [(chars "data/names/English.txt", chars "Abe\nAbel"),
       (chars "data/names/Spanish.txt", chars "Ana")]
      (by decide) (chars "data/names/English.txt") (chars "Abe\nAbel")
      (by decide)).2.2⟩

theorem lookup_append_left_vocab (d e : List (List Char × Nat))
    (w : List Char) (i : Nat) (h : d.lookup w = some i) :
    (d ++ e).lookup w = some i := by
  induction d with
  | nil => simp [List.lookup] at h
  | cons p t ih =>
    rcases p with ⟨k, v⟩
    by_cases hk : w = k
    · simp [List.lookup, hk] at h ⊢
      exact h
    · simp only [List.cons_append, List.lookup_cons,
        beq_false_of_ne hk] at h ⊢
      exact ih h

theorem insertWord_lookup_stable (d : List (List Char × Nat))
    (v w : List Char) (i : Nat) (h : d.lookup w = some i) :
    (insertWord d v).lookup w = some i := by
  unfold insertWord
  by_cases hc : ((d.map Prod.fst).contains v : Bool)
  · rw [if_pos hc]
    exact h
  · rw [if_neg hc]
    exact lookup_append_left_vocab d _ w i h

theorem foldl_insertWord_stable (ws : List (List Char))
    (d : List (List Char × Nat)) (w : List Char) (i : Nat)
    (h : d.lookup w = some i) :
    (ws.foldl insertWord d).lookup w = some i := by
  induction ws generalizing d with
  | nil => exact h
  | cons v rest ih =>
    rw [List.foldl_cons]
    exact ih _ (insertWord_lookup_stable d v w i h)

theorem insertWord_invariant (d : List (List Char × Nat)) (w : List Char)
    (h1 : d.map Prod.snd = List.range d.length)
    (h2 : (d.map Prod.fst).Nodup) :
    (insertWord d w).map Prod.snd = List.range (insertWord d w).length
    ∧ ((insertWord d w).map Prod.fst).Nodup := by
  unfold insertWord
  by_cases hc : ((d.map Prod.fst).contains w : Bool)
  · rw [if_pos hc]
    exact ⟨h1, h2⟩
  · rw [if_neg hc]
    constructor
    · rw [List.map_append, h1]
      simp [List.range_succ]
    · rw [List.map_append]
      rw [List.nodup_append]
      refine ⟨h2, List.nodup_singleton _, ?_⟩
      intro x hx hx2
      have hxw : x = w := by simpa using hx2
      subst hxw
      exact hc (by simpa using hx)

theorem foldl_insertWord_invariant (ws : List (List Char))
    (d : List (List Char × Nat))
    (h1 : d.map Prod.snd = List.range d.length)
    (h2 : (d.map Prod.fst).Nodup) :
    (ws.foldl insertWord d).map Prod.snd
      = List.range (ws.foldl insertWord d).length
    ∧ ((ws.foldl insertWord d).map Prod.fst).Nodup := by
  induction ws generalizing d with
  | nil => exact ⟨h1, h2⟩
  | cons v rest ih =>
    rw [List.foldl_cons]
    have hstep := insertWord_invariant d v h1 h2
    exact ih _ hstep.1 hstep.2

theorem wordToIx_eq_buildVocab_aux
    (data : List (List (List Char) × List (List Char)))
    (d : List (List Char × Nat)) :
    data.foldl (fun d st => st.1.foldl insertWord d) d
      = (data.flatMap Prod.fst).foldl insertWord d := by
  induction data generalizing d with
  | nil => simp
  | cons st rest ih =>
    rw [List.foldl_cons, ih, List.flatMap_cons, List.foldl_append]

/-- C5: during the `word_to_ix` construction a word is bound only at its
first occurrence and the binding is never reassigned (a lookup result
established after any prefix of the word stream survives the rest), and at
every point the mapping is injective with indices exactly the consecutive
integers 0 .. size-1; the nested sentence/word iteration of the notebook
builds exactly the vocabulary of the flattened word stream. -/
theorem wordToIx_stable_injective (pre suf : List (List Char))
    (w : List Char) (i : Nat)
    (h : (buildVocab pre).lookup w = some i) :
    (buildVocab (pre ++ suf)).lookup w = some i
    ∧ (buildVocab (pre ++ suf)).map Prod.snd
      = List.range (buildVocab (pre ++ suf)).length
    ∧ ((buildVocab (pre ++ suf)).map Prod.fst).Nodup
    ∧ ((buildVocab (pre ++ suf)).map Prod.snd).Nodup
    ∧ (∀ data, wordToIx data = buildVocab (data.flatMap Prod.fst)) := by
  have hinv := foldl_insertWord_invariant (pre ++ suf) [] (by simp) (by simp)
  refine ⟨?_, hinv.1, hinv.2, ?_, ?_⟩
  · unfold buildVocab
    rw [List.foldl_append]
    exact foldl_insertWord_stable suf _ w i h
  · show (List.map Prod.snd ((pre ++ suf).foldl insertWord [])).Nodup
    rw [hinv.1]
    exact List.nodup_range _
  · intro data
    exact wordToIx_eq_buildVocab_aux data []

/-- C5 witness: after seeing "The", "dog", the word "The" keeps index 0
through the rest of the stream, which includes a repeat of "The". -/
theorem wordToIx_stable_injective_witness :
    (buildVocab ([chars "The", chars "dog"] ++ [chars "The", chars "ate"])).lookup
      (chars "The") = some 0
    ∧ (buildVocab ([chars "The", chars "dog"] ++ [chars "The", chars "ate"])).map
        Prod.snd = List.range (buildVocab ([chars "The", chars "dog"]
          ++ [chars "The", chars "ate"])).length
    ∧ wordToIx posTrainingData
      = buildVocab (posTrainingData.flatMap Prod.fst) :=
  ⟨(wordToIx_stable_injective [chars "The", chars "dog"]
      [chars "The", chars "ate"] (chars "The") 0 (by decide)).1,
   (wordToIx_stable_injective [chars "The", chars "dog"]
      [chars "The", chars "ate"] (chars "The") 0 (by decide)).2.1,
   (wordToIx_stable_injective [chars "The", chars "dog"]
      [chars "The", chars "ate"] (chars "The") 0
      (by decide)).2.2.2.2 posTrainingData⟩

theorem filterMap_epoch_inner (ep e : Nat) :
    (posTrainingData.map (fun ex => (ep, ex))).filterMap
      (fun p => if p.1 = e then some p.2 else none)
      = if ep = e then posTrainingData else [] := by
  by_cases h : ep = e <;> simp [posTrainingData, h]

theorem flatMap_epoch_select (es : List Nat) (e : Nat) (hnd : es.Nodup)
    (he : e ∈ es) :
    es.flatMap (fun ep => if ep = e then posTrainingData else [])
      = posTrainingData := by
  induction es with
  | nil => cases he
  | cons a t ih =>
    rw [List.flatMap_cons]
    have hparts := List.nodup_cons.mp hnd
    by_cases hae : a = e
    · subst hae
      rw [if_pos rfl]
      have hnone : t.flatMap (fun ep => if ep = a then posTrainingData
          else []) = [] := by
        rw [List.flatMap_eq_nil_iff]
        intro ep hep
        rw [if_neg]
        intro hcon
        exact hparts.1 (hcon ▸ hep)
      rw [hnone, List.append_nil]
    · rw [if_neg hae, List.nil_append]
      have het : e ∈ t := by
        rcases List.mem_cons.mp he with h1 | h1
        · exact absurd h1.symm hae
        · exact h1
      exact ih hparts.2 het

theorem posEpochExamples_eq (epochs e : Nat) (he : e < epochs) :
    posEpochExamples epochs e = posTrainingData := by
  unfold posEpochExamples posTrace
  rw [List.filterMap_flatMap]
  simp only [filterMap_epoch_inner]
  exact flatMap_epoch_select _ e (List.nodup_range _) (List.mem_range.mpr he)

/-- C3 counterexample: with two categories holding one name each, the
Spanish example is a training example, yet one iteration of the generation
notebook's loop (the unit of that manual loop) processes it zero times,
not once: each iteration draws a single random example. -/
theorem namegen_iteration_not_full_pass :
    (chars "Bb") ∈ (([(chars "English", [chars "Aa"]),
        (chars "Spanish", [chars "Bb"])].lookup (chars "Spanish")).getD [])
    ∧ (namegenIterExamples [chars "English", chars "Spanish"]
        [(chars "English", [chars "Aa"]), (chars "Spanish", [chars "Bb"])]
        (fun _ => 0) 1).count (chars "Spanish", chars "Bb") = 0 := by
  constructor
  · decide
  · rfl

/-- C3 (amended): in the POS-tagger loop each epoch is one full pass over
`training_data` (each example processed exactly once); the
name-generation loop is not organized in epochs: each of its iterations
processes exactly one randomly drawn example, so an iteration is a full
pass only when the dataset has a single example. -/
theorem epochs_are_full_passes (e : Nat) (he : e < 300) :
    posEpochExamples 300 e = posTrainingData
    ∧ (∀ ex ∈ posTrainingData, (posEpochExamples 300 e).count ex = 1)
    ∧ (∀ (cats : List (List Char))
        (clines : List (List Char × List (List Char)))
        (stream : Nat → Nat) (iter : Nat),
        (namegenIterExamples cats clines stream iter).length = 1) := by
  have h1 := posEpochExamples_eq 300 e he
  refine ⟨h1, ?_, fun _ _ _ _ => rfl⟩
  intro ex hex
  rw [h1]
  fin_cases hex <;> decide

/-- C3 witness: epoch 0 of the POS-tagger loop processes the first
training example exactly once. -/
theorem epochs_are_full_passes_witness :
    posEpochExamples 300 0 = posTrainingData
    ∧ (namegenIterExamples [] [] (fun _ => 0) 1).length = 1 :=
  ⟨(epochs_are_full_passes 0 (by decide)).1,
   (epochs_are_full_passes 0 (by decide)).2.2 [] [] (fun _ => 0) 1⟩

theorem trainStepsAux_snd (θ : RNNParams) (lse : Vec → ℚ)
    (masks : Nat → List Bool) (catT : Vec) (targets : List Int)
    (inputs : List Vec) :
    ∀ (i : Nat) (hidden : Vec) (loss : ℚ) (lastOut : Option Vec),
    (trainStepsAux θ lse masks catT targets i hidden loss lastOut inputs).2
      = loss + (runLosses θ lse masks catT targets i hidden inputs).sum := by
  induction inputs with
  | nil => intro i hidden loss lastOut; simp [trainStepsAux, runLosses]
  | cons inp rest ih =>
    intro i hidden loss lastOut
    simp only [trainStepsAux, runLosses, List.sum_cons]
    rw [ih]
    ring

theorem runOutputs_length (θ : RNNParams) (lse : Vec → ℚ)
    (masks : Nat → List Bool) (catT : Vec) (inputs : List Vec) :
    ∀ (i : Nat) (hidden : Vec),
    (runOutputs θ lse masks catT i hidden inputs).length = inputs.length := by
  induction inputs with
  | nil => intro i hidden; rfl
  | cons inp rest ih => intro i hidden; simp [runOutputs, ih]

theorem runOutputs_ne_nil (θ : RNNParams) (lse : Vec → ℚ)
    (masks : Nat → List Bool) (catT : Vec) (inputs : List Vec)
    (hne : inputs ≠ []) (i : Nat) (hidden : Vec) :
    runOutputs θ lse masks catT i hidden inputs ≠ [] := by
  intro hcon
  have hlen := runOutputs_length θ lse masks catT inputs i hidden
  rw [hcon] at hlen
  exact hne (List.eq_nil_of_length_eq_zero hlen.symm)

theorem trainStepsAux_fst (θ : RNNParams) (lse : Vec → ℚ)
    (masks : Nat → List Bool) (catT : Vec) (targets : List Int)
    (inputs : List Vec) (hne : inputs ≠ []) :
    ∀ (i : Nat) (hidden : Vec) (loss : ℚ) (lastOut : Option Vec),
    (trainStepsAux θ lse masks catT targets i hidden loss lastOut inputs).1
      = (runOutputs θ lse masks catT i hidden inputs).getLast? := by
  induction inputs with
  | nil => exact absurd rfl hne
  | cons inp rest ih =>
    intro i hidden loss lastOut
    by_cases hr : rest = []
    · subst hr
      simp [trainStepsAux, runOutputs]
    · simp only [trainStepsAux, runOutputs]
      rw [ih hr]
      obtain ⟨b, t, rfl⟩ := List.exists_cons_of_ne_nil hr
      simp only [runOutputs]
      rw [List.getLast?_cons_cons]

theorem zipWith_sub_mul (lr : ℚ) (a b : List ℚ) :
    List.zipWith (fun p g => p + (-lr) * g) a b
      = List.zipWith (fun p g => p - lr * g) a b := by
  induction a generalizing b with
  | nil => simp
  | cons x t ih =>
    cases b with
    | nil => simp
    | cons y u =>
      simp only [List.zipWith_cons_cons, ih]
      congr 1
      ring

/-- C2: for a training example with a nonempty input sequence, `train`
runs one forward pass of the RNN per timestep threading the hidden state
(the run described by `runOutputs`), accumulates the per-timestep
negative-log-likelihood losses, invokes the backward oracle once on the
summed loss, updates every flattened parameter `p` to
`p - learning_rate * grad p`, and returns the last timestep's output
together with the summed loss divided by the sequence length. -/
theorem train_spec (θ : RNNParams) (lse : Vec → ℚ) (masks : Nat → List Bool)
    (backward : ℚ → List ℚ) (lr : ℚ) (catT : Vec)
    (inputLine : List Vec) (targetLine : List Int) (h : inputLine ≠ []) :
    train θ lse masks backward lr catT inputLine targetLine
      = some (
        (runOutputs θ lse masks catT 0 (initHidden θ) inputLine).getLastD [],
        (runLosses θ lse masks catT targetLine 0 (initHidden θ)
          inputLine).sum / (inputLine.length : ℚ),
        List.zipWith (fun p g => p - lr * g) (flattenParams θ)
          (backward (runLosses θ lse masks catT targetLine 0
            (initHidden θ) inputLine).sum)) := by
  have hfst := trainStepsAux_fst θ lse masks catT targetLine inputLine h
    0 (initHidden θ) 0 none
  have hsnd := trainStepsAux_snd θ lse masks catT targetLine inputLine
    0 (initHidden θ) 0 none
  have hlen : (runOutputs θ lse masks catT 0 (initHidden θ)
      inputLine).length = inputLine.length :=
    runOutputs_length θ lse masks catT inputLine 0 (initHidden θ)
  have hone : (runOutputs θ lse masks catT 0 (initHidden θ) inputLine) ≠ [] := by
    intro hcon
    rw [hcon] at hlen
    exact h (List.eq_nil_of_length_eq_zero hlen.symm)
  obtain ⟨v, hv⟩ := Option.isSome_iff_exists.mp
    (List.getLast?_isSome.mpr hone)
  have hd : (runOutputs θ lse masks catT 0 (initHidden θ)
      inputLine).getLastD [] = v := by
    rw [List.getLastD_eq_getLast?, hv]
    rfl
  unfold train
  simp only [hfst, hsnd, hv, zero_add, hd, zipWith_sub_mul]

/-- C2 witness: `train` evaluated on a concrete one-timestep example with
a small concrete parameter set, the notebook's learning rate, and a
constant backward oracle. -/
theorem train_spec_witness :
    train ⟨1, ⟨[[1, 1, 1]], [0]⟩, ⟨[[1, 0, 0]], [0]⟩, ⟨[[1, 1]], [0]⟩⟩
      (fun _ => 0) (fun _ => [true]) (fun l => List.replicate 11 l)
      learningRate [1] [[1]] [0]
      = some (
        (runOutputs ⟨1, ⟨[[1, 1, 1]], [0]⟩, ⟨[[1, 0, 0]], [0]⟩, ⟨[[1, 1]], [0]⟩⟩
          (fun _ => 0) (fun _ => [true]) [1] 0
          (initHidden ⟨1, ⟨[[1, 1, 1]], [0]⟩, ⟨[[1, 0, 0]], [0]⟩,
            ⟨[[1, 1]], [0]⟩⟩) [[1]]).getLastD [],
        (runLosses ⟨1, ⟨[[1, 1, 1]], [0]⟩, ⟨[[1, 0, 0]], [0]⟩, ⟨[[1, 1]], [0]⟩⟩
          (fun _ => 0) (fun _ => [true]) [1] [0] 0
          (initHidden ⟨1, ⟨[[1, 1, 1]], [0]⟩, ⟨[[1, 0, 0]], [0]⟩,
            ⟨[[1, 1]], [0]⟩⟩) [[1]]).sum / (([[1]] : List Vec).length : ℚ),
        List.zipWith (fun p g => p - learningRate * g)
          (flattenParams ⟨1, ⟨[[1, 1, 1]], [0]⟩, ⟨[[1, 0, 0]], [0]⟩,
            ⟨[[1, 1]], [0]⟩⟩)
          ((fun l => List.replicate 11 l)
            ((runLosses ⟨1, ⟨[[1, 1, 1]], [0]⟩, ⟨[[1, 0, 0]], [0]⟩,
              ⟨[[1, 1]], [0]⟩⟩ (fun _ => 0) (fun _ => [true]) [1] [0] 0
              (initHidden ⟨1, ⟨[[1, 1, 1]], [0]⟩, ⟨[[1, 0, 0]], [0]⟩,
                ⟨[[1, 1]], [0]⟩⟩) [[1]]).sum))) :=
  train_spec ⟨1, ⟨[[1, 1, 1]], [0]⟩, ⟨[[1, 0, 0]], [0]⟩, ⟨[[1, 1]], [0]⟩⟩
    (fun _ => 0) (fun _ => [true]) (fun l => List.replicate 11 l)
    learningRate [1] [[1]] [0] (by decide)

theorem greedyIndices_length (θ : RNNParams) (lse : Vec → ℚ)
    (masks : Nat → List Bool) (catT : Vec) :
    ∀ (fuel i : Nat) (inp hidden : Vec),
    (greedyIndices θ lse masks catT fuel i inp hidden).length = fuel := by
  intro fuel
  induction fuel with
  | zero => intro i inp hidden; rfl
  | succ n ih => intro i inp hidden; simp [greedyIndices, ih]

theorem sampleAux_eq_greedy (θ : RNNParams) (lse : Vec → ℚ)
    (masks : Nat → List Bool) (catT : Vec) :
    ∀ (fuel i : Nat) (inp hidden : Vec) (name : List Char),
    sampleAux θ lse masks catT fuel i inp hidden name
      = name ++ ((greedyIndices θ lse masks catT fuel i inp
          hidden).takeWhile (fun t => decide (t ≠ nLetters - 1))).map
          (fun t => allLetters.getD t ' ') := by
  intro fuel
  induction fuel with
  | zero => intro i inp hidden name; simp [sampleAux, greedyIndices]
  | succ n ih =>
    intro i inp hidden name
    simp only [sampleAux, greedyIndices]
    by_cases ht : topIdx (rnnForward θ lse (masks i) catT inp hidden).1
        = nLetters - 1
    · rw [if_pos ht]
      rw [List.takeWhile_cons_of_neg]
      · simp
      · simp [ht]
    · rw [if_neg ht]
      rw [ih]
      rw [List.takeWhile_cons_of_pos]
      · simp
      · simp [ht]

/-- C8: for every category, weight set, dropout-mask stream, normalizer
and single start character, `sample` returns the start character followed
by the letters of the greedy index stream up to (excluding) the first EOS
vote, cut off after `max_length` iterations; hence the result has length
at least 1 and at most `max_length + 1` = 21, begins with the start
letter, and stops early exactly when the network's top index equals the
EOS index `n_letters - 1`.  (`sample` is a total function of this model,
so termination is inherent.) -/
theorem sample_bounded (cats : List (List Char)) (θ : RNNParams)
    (lse : Vec → ℚ) (masks : Nat → List Bool) (category : List Char)
    (startLetter : Char) :
    sample cats θ lse masks category startLetter
      = startLetter :: ((greedyIndices θ lse masks
          (categoryTensor cats category) maxLength 0
          (inputTensorSlice startLetter) (initHidden θ)).takeWhile
            (fun t => decide (t ≠ nLetters - 1))).map
            (fun t => allLetters.getD t ' ')
    ∧ 1 ≤ (sample cats θ lse masks category startLetter).length
    ∧ (sample cats θ lse masks category startLetter).length ≤ maxLength + 1
    ∧ (sample cats θ lse masks category startLetter).head?
        = some startLetter := by
  have heq := sampleAux_eq_greedy θ lse masks (categoryTensor cats category)
    maxLength 0 (inputTensorSlice startLetter) (initHidden θ) [startLetter]
  have heq2 : sample cats θ lse masks category startLetter
      = startLetter :: ((greedyIndices θ lse masks
        (categoryTensor cats category) maxLength 0
        (inputTensorSlice startLetter) (initHidden θ)).takeWhile
          (fun t => decide (t ≠ nLetters - 1))).map
          (fun t => allLetters.getD t ' ') := by
    unfold sample
    rw [heq]
    rfl
  refine ⟨heq2, ?_, ?_, ?_⟩
  · rw [heq2]
    simp
  · rw [heq2]
    have h1 : (((greedyIndices θ lse masks (categoryTensor cats category)
        maxLength 0 (inputTensorSlice startLetter)
        (initHidden θ)).takeWhile
          (fun t => decide (t ≠ nLetters - 1)))).length ≤ maxLength := by
      calc (((greedyIndices θ lse masks (categoryTensor cats category)
          maxLength 0 (inputTensorSlice startLetter)
          (initHidden θ)).takeWhile
            (fun t => decide (t ≠ nLetters - 1)))).length
          ≤ (greedyIndices θ lse masks (categoryTensor cats category)
            maxLength 0 (inputTensorSlice startLetter)
            (initHidden θ)).length :=
            List.Sublist.length_le (List.takeWhile_sublist _)
        _ = maxLength := greedyIndices_length θ lse masks _ maxLength 0 _ _
    simp only [List.length_cons, List.length_map]
    omega
  · rw [heq2]
    rfl

/-- A concrete small parameter set for the RNN architecture (one category,
one input coordinate, hidden size 1, two output coordinates) whose
pre-dropout output is nonzero in the first coordinate, so the dropout mask
changes the result. -/
def dropoutDemoParams : RNNParams :=
  ⟨1, ⟨[[0, 0, 0]], [0]⟩, ⟨[[0, 0, 1]], [0]⟩, ⟨[[0, 1], [0, 0]], [0, 0]⟩⟩

/-- A fixed weight set for the full sampling pipeline with one category
and hidden size 1 (so the combined input has length 1 + n_letters + 1 =
61): both hidden and intermediate outputs are identically zero and the
`o2o` bias alone fixes the pre-dropout output at [2, 1], so the top index
is decided entirely by which coordinates the dropout mask keeps. -/
def sampleDemoParams : RNNParams :=
  ⟨1, ⟨[List.replicate 61 0], [0]⟩, ⟨[List.replicate 61 0], [0]⟩,
   ⟨[[0, 0], [0, 0]], [2, 1]⟩⟩

theorem rnnForward_fst_eq (θ : RNNParams) (lse : Vec → ℚ)
    (mask : List Bool) (category input hidden : Vec) :
    (rnnForward θ lse mask category input hidden).1
      = logSoftmax lse (dropoutApply mask (applyLinear θ.o2o
          (applyLinear θ.i2h (category ++ input ++ hidden)
            ++ applyLinear θ.i2o (category ++ input ++ hidden)))) := rfl

theorem greedyIndices_succ (θ : RNNParams) (lse : Vec → ℚ)
    (masks : Nat → List Bool) (catT : Vec) (fuel i : Nat)
    (inp hidden : Vec) :
    greedyIndices θ lse masks catT (fuel + 1) i inp hidden
      = topIdx (rnnForward θ lse (masks i) catT inp hidden).1
        :: greedyIndices θ lse masks catT fuel (i + 1)
          (inputTensorSlice (allLetters.getD
            (topIdx (rnnForward θ lse (masks i) catT inp hidden).1) ' '))
          (rnnForward θ lse (masks i) catT inp hidden).2 := rfl

theorem topIdx_pair_fst (a b : ℚ) (h : b < a) : topIdx [a, b] = 0 := by
  unfold topIdx
  rw [show ([a, b] : List ℚ).max? = some (max a b) from rfl]
  rw [max_eq_left h.le]
  simp [List.indexOf_cons_self]

theorem topIdx_pair_snd (a b : ℚ) (h : a < b) : topIdx [a, b] = 1 := by
  unfold topIdx
  rw [show ([a, b] : List ℚ).max? = some (max a b) from rfl]
  rw [max_eq_right h.le]
  show List.indexOf b [a, b] = 1
  rw [List.indexOf_cons_ne _ (ne_of_lt h)]
  simp [List.indexOf_cons_self]

theorem dotQ_zero_row (n : Nat) (x : Vec) :
    dotQ (List.replicate n 0) x = 0 := by
  induction n generalizing x with
  | zero => rfl
  | succ m ih =>
    cases x with
    | nil => rfl
    | cons y t =>
      rw [List.replicate_succ]
      simp only [dotQ, List.zipWith_cons_cons, List.sum_cons, zero_mul,
        zero_add]
      exact ih t

theorem sampleDemo_zero_layer (x : Vec) :
    applyLinear ⟨[List.replicate 61 0], [0]⟩ x = [0] := by
  show [dotQ (List.replicate 61 0) x + 0] = [0]
  rw [dotQ_zero_row, add_zero]

theorem sampleDemo_pre_keep :
    dropoutApply [true, true] (applyLinear sampleDemoParams.o2o
      (applyLinear sampleDemoParams.i2h
        (categoryTensor [chars "English"] (chars "English")
          ++ inputTensorSlice 'a' ++ initHidden sampleDemoParams)
        ++ applyLinear sampleDemoParams.i2o
        (categoryTensor [chars "English"] (chars "English")
          ++ inputTensorSlice 'a' ++ initHidden sampleDemoParams)))
      = [20 / 9, 10 / 9] := by
  rw [show sampleDemoParams.i2h = ⟨[List.replicate 61 0], [0]⟩ from rfl,
    show sampleDemoParams.i2o = ⟨[List.replicate 61 0], [0]⟩ from rfl,
    sampleDemo_zero_layer]
  show dropoutApply [true, true]
    (applyLinear ⟨[[0, 0], [0, 0]], [2, 1]⟩ [0, 0]) = _
  norm_num [applyLinear, dotQ, dropoutApply]

theorem sampleDemo_pre_drop :
    dropoutApply [false, true] (applyLinear sampleDemoParams.o2o
      (applyLinear sampleDemoParams.i2h
        (categoryTensor [chars "English"] (chars "English")
          ++ inputTensorSlice 'a' ++ initHidden sampleDemoParams)
        ++ applyLinear sampleDemoParams.i2o
        (categoryTensor [chars "English"] (chars "English")
          ++ inputTensorSlice 'a' ++ initHidden sampleDemoParams)))
      = [0, 10 / 9] := by
  rw [show sampleDemoParams.i2h = ⟨[List.replicate 61 0], [0]⟩ from rfl,
    show sampleDemoParams.i2o = ⟨[List.replicate 61 0], [0]⟩ from rfl,
    sampleDemo_zero_layer]
  show dropoutApply [false, true]
    (applyLinear ⟨[[0, 0], [0, 0]], [2, 1]⟩ [0, 0]) = _
  norm_num [applyLinear, dotQ, dropoutApply]

theorem sampleDemo_top_keep (lse : Vec → ℚ) :
    topIdx (rnnForward sampleDemoParams lse [true, true]
      (categoryTensor [chars "English"] (chars "English"))
      (inputTensorSlice 'a') (initHidden sampleDemoParams)).1 = 0 := by
  rw [rnnForward_fst_eq, sampleDemo_pre_keep]
  rw [show logSoftmax lse [20 / 9, 10 / 9]
      = [20 / 9 - lse [20 / 9, 10 / 9], 10 / 9 - lse [20 / 9, 10 / 9]]
    from rfl]
  exact topIdx_pair_fst _ _
    (sub_lt_sub_right (by norm_num : (10 : ℚ) / 9 < 20 / 9) _)

theorem sampleDemo_top_drop (lse : Vec → ℚ) :
    topIdx (rnnForward sampleDemoParams lse [false, true]
      (categoryTensor [chars "English"] (chars "English"))
      (inputTensorSlice 'a') (initHidden sampleDemoParams)).1 = 1 := by
  rw [rnnForward_fst_eq, sampleDemo_pre_drop]
  rw [show logSoftmax lse [0, 10 / 9]
      = [0 - lse [0, 10 / 9], 10 / 9 - lse [0, 10 / 9]] from rfl]
  exact topIdx_pair_snd _ _
    (sub_lt_sub_right (by norm_num : (0 : ℚ) < 10 / 9) _)

theorem sampleDemo_second_letter (lse : Vec → ℚ) (mask : List Bool)
    (t : Nat) (ht : topIdx (rnnForward sampleDemoParams lse mask
      (categoryTensor [chars "English"] (chars "English"))
      (inputTensorSlice 'a') (initHidden sampleDemoParams)).1 = t)
    (hne : t ≠ nLetters - 1) :
    (sample [chars "English"] sampleDemoParams lse (fun _ => mask)
        (chars "English") 'a').getD 1 ' '
      = allLetters.getD t ' ' := by
  show (sampleAux sampleDemoParams lse (fun _ => mask)
    (categoryTensor [chars "English"] (chars "English")) maxLength 0
    (inputTensorSlice 'a') (initHidden sampleDemoParams) ['a']).getD 1 ' '
    = allLetters.getD t ' '
  rw [sampleAux_eq_greedy]
  rw [show maxLength = 19 + 1 from rfl]
  rw [greedyIndices_succ]
  simp only [ht]
  rw [List.takeWhile_cons_of_pos (by simpa using hne)]
  rw [List.map_cons]
  rfl

/-- C7: the programs are stochastic rather than deterministic functions of
their inputs.  First, on a fixed two-category dataset there are two
generator streams whose selected-training-example sequences differ (the
loop draws each example with fresh unseeded randomness).  Second, the
forward pass applies a live dropout layer, so for a fixed weight set there
are two dropout masks giving different output distributions whatever the
(abstract) log-softmax normalizer is.  Third, `sample` runs that forward
pass in training mode, and for a fixed weight set the two masks make it
generate different names (the kept first coordinate wins the top-1 vote,
the dropped one loses it), so generated names are random even for fixed
weights. -/
theorem outputs_stochastic :
    (∃ s1 s2 : Nat → Nat,
      (selectedPairs [chars "English", chars "Spanish"]
          [(chars "English", [chars "Aa"]), (chars "Spanish", [chars "Bb"])]
          s1 1
        == selectedPairs [chars "English", chars "Spanish"]
          [(chars "English", [chars "Aa"]), (chars "Spanish", [chars "Bb"])]
          s2 1) = false)
    ∧ (∀ lse : Vec → ℚ,
      ((rnnForward dropoutDemoParams lse [true, true] [0] [0] [1]).1
        == (rnnForward dropoutDemoParams lse [false, true] [0] [0] [1]).1)
        = false)
    ∧ (∀ lse : Vec → ℚ,
      (sample [chars "English"] sampleDemoParams lse (fun _ => [true, true])
          (chars "English") 'a'
        == sample [chars "English"] sampleDemoParams lse
          (fun _ => [false, true]) (chars "English") 'a') = false) := by
  refine ⟨⟨fun _ => 0, fun _ => 1, by decide⟩, ?_, ?_⟩
  · intro lse
    rw [beq_eq_false_iff_ne]
    intro heq
    have h1 : (rnnForward dropoutDemoParams lse [true, true] [0] [0] [1]).1
        = [10 / 9 - lse (dropoutApply [true, true] [1, 0]),
           0 - lse (dropoutApply [true, true] [1, 0])] := by
      simp [rnnForward, dropoutDemoParams, applyLinear, dotQ, dropoutApply,
        logSoftmax]
    have h2 : (rnnForward dropoutDemoParams lse [false, true] [0] [0] [1]).1
        = [0 - lse (dropoutApply [false, true] [1, 0]),
           0 - lse (dropoutApply [false, true] [1, 0])] := by
      simp [rnnForward, dropoutDemoParams, applyLinear, dotQ, dropoutApply,
        logSoftmax]
    rw [h1, h2] at heq
    simp only [List.cons.injEq, and_true] at heq
    obtain ⟨ha, hb⟩ := heq
    have hc : (10 : ℚ) / 9 = 0 := by linarith
    norm_num at hc
  · intro lse
    have hsA := sampleDemo_second_letter lse [true, true] 0
      (sampleDemo_top_keep lse) (by decide)
    have hsB := sampleDemo_second_letter lse [false, true] 1
      (sampleDemo_top_drop lse) (by decide)
    rw [beq_eq_false_iff_ne]
    intro heq
    rw [heq, hsB] at hsA
    exact absurd hsA (by decide)
